import Mathlib

/- Verification development for the packet_capture_tool repository.

   This file gives a shallow embedding of the storage, caching and
   pagination logic of the tool (src/storage.py and the pagination /
   cache / hot-buffer portions of src/app.py) and proves or refutes the
   frozen specification claims about them.

   Payload records (ParsedPacket values) are treated as an abstract type
   `D`; the JSON serialization of a record line with fields index and data
   is abstracted by a size function `sz : Nat → D → Nat` giving the
   UTF-8 byte length of the serialized line, and the read path treats
   ParsedPacket.from_json (ParsedPacket.to_json d) = d as the identity,
   which matches the dict round trip performed by the code. -/

set_option maxHeartbeats 1000000

namespace PacketCapture

/-- Lexicographic comparison of char lists by code point; embeds the
string comparison Python's sorted() applies to segment file names. -/
def strLtb : List Char → List Char → Bool
  | [], [] => false
  | [], _ :: _ => true
  | _ :: _, [] => false
  | a :: as, b :: bs =>
    if a.toNat < b.toNat then true
    else if b.toNat < a.toNat then false
    else strLtb as bs

/-- `a` sorts no later than `b` as a file name (total preorder used by
sorted() over globbed segment files). -/
def nameLe (a b : String) : Prop := strLtb b.data a.data = false

instance (a b : String) : Decidable (nameLe a b) := by unfold nameLe; infer_instance

/-- Embedding of the Python format expression f-string `idx:04d` used in
RotatingJSONLWriter._rotate_file: the decimal rendering of `k`,
zero-padded on the left to at least four digits. -/
def format04d (k : Nat) : String :=
  if k < 10000 then
    String.mk [Nat.digitChar (k / 1000 % 10), Nat.digitChar (k / 100 % 10),
               Nat.digitChar (k / 10 % 10), Nat.digitChar (k % 10)]
  else Nat.repr k

/-- Segment file name generated by RotatingJSONLWriter._rotate_file:
`{session_name}_{index:04d}.jsonl`. -/
def fileName (session : String) (k : Nat) : String :=
  session ++ "_" ++ format04d k ++ ".jsonl"

/-- State of a RotatingJSONLWriter (src/storage.py) together with the
on-disk segment files it has produced.  `prevFiles` are the segments
already rotated away from, oldest first, each as (ordinal, lines);
`fileIndex`, `currentSize` and `currentLines` describe the file the
writer is positioned on (`_current_file_index`, `_current_file_size`
and the file's contents); `isOpen` is whether `_current_file` is a live
handle (close() sets it to None).  Disk I/O is modelled fault-free. -/
structure WriterState (D : Type) where
  sessionName : String
  maxFileSize : Nat
  fileIndex : Nat
  isOpen : Bool
  currentSize : Nat
  currentLines : List (Nat × D)
  prevFiles : List (Nat × List (Nat × D))
deriving DecidableEq

variable {D : Type}

/-- `RotatingJSONLWriter.__init__`: sets the index to 0 and immediately
rotates, so the writer starts positioned on the open, empty segment
with ordinal 1. -/
def initWriter (name : String) (maxSize : Nat) : WriterState D :=
  ⟨name, maxSize, 1, true, 0, [], []⟩

/-- `RotatingJSONLWriter._rotate_file` as called from `write`: the
current segment is closed (it stays on disk), the ordinal is
incremented and a fresh empty segment is opened. -/
def rotateFile (w : WriterState D) : WriterState D :=
  { w with
    prevFiles := w.prevFiles ++ [(w.fileIndex, w.currentLines)]
    fileIndex := w.fileIndex + 1
    isOpen := true
    currentSize := 0
    currentLines := [] }

variable (sz : Nat → D → Nat)

/-- `RotatingJSONLWriter.write`: returns False without touching
anything when the handle is closed; otherwise serializes the line,
rotates first if appending it would push the current file past
`max_file_size`, then appends the line and adds its size. -/
def write (w : WriterState D) (i : Nat) (d : D) : Bool × WriterState D :=
  if w.isOpen then
    let ls := sz i d
    let w' := if w.currentSize + ls > w.maxFileSize then rotateFile w else w
    (true, { w' with
             currentLines := w'.currentLines ++ [(i, d)]
             currentSize := w'.currentSize + ls })
  else (false, w)

/-- A sequence of `write` calls, one per (index, payload) line. -/
def writeSeq (w : WriterState D) : List (Nat × D) → WriterState D
  | [] => w
  | p :: rest => writeSeq (write sz w p.1 p.2).2 rest

/-- `RotatingJSONLWriter.close`: drops the handle; the files remain on
disk. -/
def closeWriter (w : WriterState D) : WriterState D := { w with isOpen := false }

/-- All segment files of the session on disk, in creation order, each
as (ordinal, lines).  The last one is the segment the writer is
positioned on. -/
def diskFiles (w : WriterState D) : List (Nat × List (Nat × D)) :=
  w.prevFiles ++ [(w.fileIndex, w.currentLines)]

/-- Byte size of a segment file: the sum of the serialized sizes of its
lines. -/
def fileSize (lines : List (Nat × D)) : Nat :=
  (lines.map (fun p => sz p.1 p.2)).sum

/-- Largest serialized line size occurring in a segment file. -/
def maxLine (lines : List (Nat × D)) : Nat :=
  (lines.map (fun p => sz p.1 p.2)).foldr max 0

/-- Concatenation of all segment files' lines in creation order. -/
def allLines (w : WriterState D) : List (Nat × D) :=
  ((diskFiles w).map Prod.snd).flatten

/-- `read_all_jsonl_packets` (src/storage.py): glob all
`{session}_*.jsonl` files sorted by name, parse every line into an
(index, record) pair, and sort the collected pairs by index. -/
def readAllJsonlPackets (w : WriterState D) : List (Nat × D) :=
  List.insertionSort (fun a b => a.1 ≤ b.1)
    (((List.insertionSort
        (fun f g => nameLe (fileName w.sessionName f.1) (fileName w.sessionName g.1))
        (diskFiles w)).map Prod.snd).flatten)

theorem write_isOpen (w : WriterState D) (i : Nat) (d : D) (h : w.isOpen = true) :
    (write sz w i d).2.isOpen = true := by
  by_cases hr : w.currentSize + sz i d > w.maxFileSize <;>
    simp [write, h, hr, rotateFile]

theorem allLines_write (w : WriterState D) (i : Nat) (d : D) (h : w.isOpen = true) :
    allLines (write sz w i d).2 = allLines w ++ [(i, d)] := by
  by_cases hr : w.currentSize + sz i d > w.maxFileSize <;>
    simp [write, h, hr, rotateFile, allLines, diskFiles]

theorem allLines_writeSeq (ls : List (Nat × D)) (w : WriterState D) (h : w.isOpen = true) :
    allLines (writeSeq sz w ls) = allLines w ++ ls := by
  induction ls generalizing w with
  | nil => simp [writeSeq]
  | cons p rest ih =>
    rw [writeSeq, ih _ (write_isOpen sz w p.1 p.2 h),
      allLines_write sz w p.1 p.2 h]
    simp

theorem allLines_initWriter (name : String) (M : Nat) :
    allLines (initWriter name M : WriterState D) = [] := by
  simp [allLines, initWriter, diskFiles]

theorem readAll_perm (w : WriterState D) :
    (readAllJsonlPackets w).Perm (allLines w) := by
  unfold readAllJsonlPackets
  refine (List.perm_insertionSort _ _).trans ?_
  exact ((List.perm_insertionSort _ (diskFiles w)).map Prod.snd).flatten

/-- C1: Round trip.  Appending records with indices 0..N-1 through the
rotating writer (each written as the JSONL line with fields index and
data) and then reading the whole session back with
read_all_jsonl_packets returns exactly the N (index, record) pairs in
ascending index order, each payload equal to the one appended. -/
theorem c1_round_trip (name : String) (M : Nat) (ds : List D) :
    readAllJsonlPackets (writeSeq sz (initWriter name M) ds.enum) = ds.enum := by
  set w := writeSeq sz (initWriter name M) ds.enum with hw
  have hall : allLines w = ds.enum := by
    rw [hw, allLines_writeSeq sz ds.enum _ rfl, allLines_initWriter]
    simp
  have hperm : (readAllJsonlPackets w).Perm ds.enum := hall ▸ readAll_perm w
  haveI : IsTotal (Nat × D) (fun a b => a.1 ≤ b.1) := ⟨fun a b => Nat.le_total _ _⟩
  haveI : IsTrans (Nat × D) (fun a b => a.1 ≤ b.1) := ⟨fun _ _ _ => Nat.le_trans⟩
  have hsorted : List.Sorted (fun a b : Nat × D => a.1 ≤ b.1) (readAllJsonlPackets w) :=
    List.sorted_insertionSort _ _
  have hkeys : ((readAllJsonlPackets w).map Prod.fst).Perm (List.range ds.length) := by
    have := hperm.map Prod.fst
    rwa [List.enum_map_fst] at this
  have hnodup : ((readAllJsonlPackets w).map Prod.fst).Nodup :=
    hkeys.symm.nodup (List.nodup_range _)
  have hne : List.Pairwise (fun a b : Nat × D => a.1 ≠ b.1) (readAllJsonlPackets w) :=
    List.pairwise_map.mp hnodup
  have hstrict : List.Sorted (fun a b : Nat × D => a.1 < b.1) (readAllJsonlPackets w) :=
    (hsorted.and hne).imp (fun h => Nat.lt_of_le_of_ne h.1 h.2)
  have henum : List.Sorted (fun a b : Nat × D => a.1 < b.1) ds.enum := by
    have h1 : List.Pairwise (· < ·) (ds.enum.map Prod.fst) := by
      rw [List.enum_map_fst]; exact List.pairwise_lt_range _
    exact List.pairwise_map.mp h1
  haveI : IsAntisymm (Nat × D) (fun a b => a.1 < b.1) :=
    ⟨fun _ _ h1 h2 => absurd h2 (Nat.lt_asymm h1)⟩
  exact List.eq_of_perm_of_sorted hperm hstrict henum

/-- Invariant maintained by the writer: the handle is open, the tracked
size equals the real byte size of the current file, and every file's
byte size respects the soft rotation bound. -/
def WriterInv (w : WriterState D) : Prop :=
  w.isOpen = true ∧
  w.currentSize = fileSize sz w.currentLines ∧
  w.currentSize ≤ w.maxFileSize + maxLine sz w.currentLines ∧
  ∀ f ∈ w.prevFiles, fileSize sz f.2 ≤ w.maxFileSize + maxLine sz f.2

theorem writerInv_init (name : String) (M : Nat) :
    WriterInv sz (initWriter name M : WriterState D) := by
  refine ⟨rfl, rfl, by simp [initWriter, maxLine], ?_⟩
  intro f hf
  simp [initWriter] at hf

theorem writerInv_write (w : WriterState D) (i : Nat) (d : D)
    (h : WriterInv sz w) : WriterInv sz (write sz w i d).2 := by
  obtain ⟨ho, hsz, hb, hprev⟩ := h
  by_cases hr : w.currentSize + sz i d > w.maxFileSize
  · refine ⟨by simp [write, ho, hr, rotateFile], ?_, ?_, ?_⟩
    · simp [write, ho, hr, rotateFile, fileSize]
    · simp only [write, ho, if_true, hr, rotateFile]
      simp [maxLine]
    · simp only [write, ho, if_true, hr, rotateFile]
      intro f hf
      rcases List.mem_append.mp hf with hf' | hf'
      · exact hprev f hf'
      · simp at hf'
        rw [hf']
        calc fileSize sz w.currentLines = w.currentSize := hsz.symm
          _ ≤ w.maxFileSize + maxLine sz w.currentLines := hb
  · refine ⟨by simp [write, ho, hr], ?_, ?_, ?_⟩
    · simp only [write, ho, if_true]
      rw [if_neg hr]
      simp [fileSize, hsz]
    · simp only [write, ho, if_true, hr, if_false]
      have : w.currentSize + sz i d ≤ w.maxFileSize := Nat.le_of_not_lt hr
      exact Nat.le_trans this (Nat.le_add_right _ _)
    · simp only [write, ho, if_true, hr, if_false]
      exact hprev

theorem writerInv_writeSeq (ls : List (Nat × D)) (w : WriterState D)
    (h : WriterInv sz w) : WriterInv sz (writeSeq sz w ls) := by
  induction ls generalizing w with
  | nil => exact h
  | cons p rest ih => exact ih _ (writerInv_write sz w p.1 p.2 h)

theorem writeSeq_maxFileSize (ls : List (Nat × D)) (w : WriterState D) :
    (writeSeq sz w ls).maxFileSize = w.maxFileSize := by
  induction ls generalizing w with
  | nil => rfl
  | cons p rest ih =>
    rw [writeSeq, ih]
    by_cases hr : w.currentSize + sz p.1 p.2 > w.maxFileSize <;>
      by_cases ho : w.isOpen <;> simp [write, ho, hr, rotateFile]

/-- C2: Rotation soft bound.  The writer checks, before writing, whether
the pending serialized line would push the current file past the
configured maximum and rotates first if so; consequently, after any
sequence of writes, every segment file's byte size is at most the
configured maximum plus the serialized size of one record stored in
that file (its largest line). -/
theorem c2_rotation_soft_bound (name : String) (M : Nat) (ds : List (Nat × D)) :
    ∀ f ∈ diskFiles (writeSeq sz (initWriter name M) ds),
      fileSize sz f.2 ≤ M + maxLine sz f.2 := by
  have hinv : WriterInv sz (writeSeq sz (initWriter name M) ds) :=
    writerInv_writeSeq sz ds _ (writerInv_init sz name M)
  have hM : (writeSeq sz (initWriter name M : WriterState D) ds).maxFileSize = M :=
    writeSeq_maxFileSize sz ds _
  obtain ⟨_, hsz, hb, hprev⟩ := hinv
  intro f hf
  rcases List.mem_append.mp hf with hf' | hf'
  · exact hM ▸ hprev f hf'
  · simp at hf'
    rw [hM] at hb
    rw [hf']
    exact hsz ▸ hb

def szW : Nat → Nat → Nat := fun _ d => d

def dsW : List (Nat × Nat) := [(0, 4), (1, 4), (2, 4), (3, 12)]

theorem c2_rotation_soft_bound_witness :
    (((3, [(3, 12)]) : Nat × List (Nat × Nat))) ∈ diskFiles (writeSeq szW (initWriter "s" 10) dsW) ∧
    fileSize szW [(3, 12)] ≤ 10 + maxLine szW [(3, 12)] :=
  ⟨by decide, c2_rotation_soft_bound szW "s" 10 dsW (3, [(3, 12)]) (by decide)⟩

/-- Ordinal bookkeeping invariant for the writer: the current file index
is one more than the number of rotated files, whose ordinals are
1, 2, ... in creation order. -/
def OrdInv (w : WriterState D) : Prop :=
  w.fileIndex = w.prevFiles.length + 1 ∧
  w.prevFiles.map Prod.fst = List.range' 1 w.prevFiles.length

theorem ordInv_write (w : WriterState D) (i : Nat) (d : D) (h : OrdInv w) :
    OrdInv (write sz w i d).2 := by
  obtain ⟨h1, h2⟩ := h
  by_cases ho : w.isOpen
  · by_cases hr : w.currentSize + sz i d > w.maxFileSize
    · constructor
      · simp [write, ho, hr, rotateFile, h1]
      · simp only [write, ho, if_true, hr, rotateFile]
        simp only [List.map_append, List.length_append, List.map_cons, List.map_nil,
          List.length_cons, List.length_nil]
        rw [h2, h1, List.range'_concat]
        simp [Nat.add_comm]
    · exact ⟨by simp [write, ho, hr, h1], by simp [write, ho, hr, h2]⟩
  · exact ⟨by simp [write, ho, h1], by simp [write, ho, h2]⟩

theorem ordInv_writeSeq (ls : List (Nat × D)) (w : WriterState D) (h : OrdInv w) :
    OrdInv (writeSeq sz w ls) := by
  induction ls generalizing w with
  | nil => exact h
  | cons p rest ih => exact ih _ (ordInv_write sz w p.1 p.2 h)

/-- C3: Segment naming.  After any write sequence the segment files, in
creation order, carry the ordinals 1, 2, ..., n (so the k-th segment
opened has ordinal k and each rotation opens ordinal+1 of the previous
one); the file with ordinal k is named
`{session}_{k:04d}.jsonl`, where the ordinal is rendered zero-padded to
four digits (the first file being `{session}_0001.jsonl`). -/
theorem c3_segment_naming (name : String) (M : Nat) (ds : List (Nat × D))
    (k : Nat) (_h1 : 1 ≤ k) (h2 : k < 10000) :
    (diskFiles (writeSeq sz (initWriter name M) ds)).map Prod.fst
      = List.range' 1 (diskFiles (writeSeq sz (initWriter name M) ds)).length ∧
    fileName name k = name ++ "_" ++ format04d k ++ ".jsonl" ∧
    (format04d k).length = 4 ∧
    format04d 1 = "0001" := by
  refine ⟨?_, rfl, by simp [format04d, h2, String.length], by decide⟩
  have hinv : OrdInv (writeSeq sz (initWriter name M : WriterState D) ds) :=
    ordInv_writeSeq sz ds _ ⟨rfl, rfl⟩
  obtain ⟨ha, hb⟩ := hinv
  simp only [diskFiles, List.map_append, List.length_append, List.map_cons, List.map_nil,
    List.length_cons, List.length_nil]
  rw [hb, ha, List.range'_concat]
  simp [Nat.add_comm]

theorem c3_segment_naming_witness :
    (1 ≤ 3 ∧ 3 < 10000) ∧
    ((diskFiles (writeSeq szW (initWriter "cap" 10) dsW)).map Prod.fst
      = List.range' 1 (diskFiles (writeSeq szW (initWriter "cap" 10) dsW)).length ∧
    fileName "cap" 3 = "cap" ++ "_" ++ format04d 3 ++ ".jsonl" ∧
    (format04d 3).length = 4 ∧
    format04d 1 = "0001") :=
  ⟨by decide, c3_segment_naming szW "cap" 10 dsW 3 (by decide) (by decide)⟩

/-- C10: Writes after close are rejected without side effects: close()
is idempotent, and a write() after close() returns False and leaves the
writer state (tracked size, current file, file set) untouched. -/
theorem c10_write_after_close (w : WriterState D) (i : Nat) (d : D) :
    write sz (closeWriter w) i d = (false, closeWriter w) ∧
    closeWriter (closeWriter w) = closeWriter w := by
  exact ⟨by simp [write, closeWriter], rfl⟩

/-- Number of pages shown for `total` records at page size `P`, as
computed throughout PacketCaptureApp: `(total + page_size - 1) //
page_size`. -/
def totalPages (P total : Nat) : Nat := (total + P - 1) / P

/-- First record index of a page: `(page - 1) * page_size`. -/
def pageStart (P page : Nat) : Nat := (page - 1) * P

/-- Last record index of a page: `min(start + page_size - 1,
last_index)` with `last_index = total - 1`. -/
def pageEnd (P total page : Nat) : Nat := min (pageStart P page + P - 1) (total - 1)

/-- Number of record indices covered by a page. -/
def pageSizeAt (P total page : Nat) : Nat := pageEnd P total page + 1 - pageStart P page

theorem totalPages_eq (P total : Nat) (hP : 0 < P) (hT : 0 < total) :
    totalPages P total = (total - 1) / P + 1 := by
  unfold totalPages
  have h : total + P - 1 = (total - 1) + P := by omega
  rw [h, Nat.add_div_right _ hP]

theorem totalPages_pos (P total : Nat) (hP : 0 < P) (hT : 0 < total) :
    0 < totalPages P total := by
  rw [totalPages_eq P total hP hT]
  exact Nat.succ_pos _

theorem le_totalPages_mul (P total : Nat) (hP : 0 < P) (hT : 0 < total) :
    total ≤ totalPages P total * P := by
  rw [totalPages_eq P total hP hT, Nat.add_mul, one_mul]
  have h1 : (total - 1) / P * P + (total - 1) % P = total - 1 := Nat.div_add_mod' _ _
  have h2 : (total - 1) % P < P := Nat.mod_lt _ hP
  generalize (total - 1) / P * P = A at h1 ⊢
  omega

theorem pred_totalPages_mul_le (P total : Nat) (hP : 0 < P) (hT : 0 < total) :
    (totalPages P total - 1) * P ≤ total - 1 := by
  rw [totalPages_eq P total hP hT]
  simpa using Nat.div_mul_le_self (total - 1) P

theorem pageStart_succ (P page : Nat) :
    pageStart P (page + 1) = page * P := by
  simp [pageStart]

theorem pageStart_add_pred (P page : Nat) (hpage : 1 ≤ page) :
    pageStart P page + P = page * P := by
  unfold pageStart
  obtain ⟨n, rfl⟩ := Nat.exists_eq_add_of_le hpage
  simp [Nat.add_comm 1 n, Nat.succ_mul]

theorem mul_le_last_of_lt_totalPages (P total page : Nat) (hP : 0 < P) (hT : 0 < total)
    (hlt : page < totalPages P total) : page * P ≤ total - 1 := by
  have h1 : page ≤ totalPages P total - 1 := by omega
  calc page * P ≤ (totalPages P total - 1) * P := Nat.mul_le_mul_right _ h1
    _ ≤ total - 1 := pred_totalPages_mul_le P total hP hT

theorem telescope_sum (f : Nat → Nat) (mono : ∀ i, f i ≤ f (i + 1)) :
    ∀ n, ((List.range n).map (fun i => f (i + 1) - f i)).sum = f n - f 0 := by
  have hmono0 : ∀ n, f 0 ≤ f n := by
    intro n
    induction n with
    | zero => exact Nat.le_refl _
    | succ m ih => exact Nat.le_trans ih (mono m)
  intro n
  induction n with
  | zero => simp
  | succ m ih =>
    rw [List.range_succ, List.map_append, List.sum_append, ih]
    simp only [List.map_cons, List.map_nil, List.sum_cons, List.sum_nil]
    have h1 := mono m
    have h2 := hmono0 m
    omega

/-- C4: Page partition law.  With page size `P > 0` and total record
count `total > 0`, the controller's page addressing (start `(page-1)*P`,
end `min(start+P-1, total-1)`, count `ceil(total/P)` pages) makes pages
1..total_pages start at 0, run contiguously, never overlap, cover
exactly through `total-1`, and have sizes summing to exactly `total`. -/
theorem c4_page_partition (P total : Nat) (hP : 0 < P) (hT : 0 < total) :
    pageStart P 1 = 0 ∧
    (∀ page, 1 ≤ page → page < totalPages P total →
      pageEnd P total page + 1 = pageStart P (page + 1)) ∧
    (∀ p q, 1 ≤ p → p < q → q ≤ totalPages P total →
      pageEnd P total p < pageStart P q) ∧
    ((List.range (totalPages P total)).map (fun i => pageSizeAt P total (i + 1))).sum
      = total ∧
    pageEnd P total (totalPages P total) = total - 1 := by
  have hcontig : ∀ page, 1 ≤ page → page < totalPages P total →
      pageEnd P total page + 1 = pageStart P (page + 1) := by
    intro page hpage hlt
    have hle : page * P ≤ total - 1 := mul_le_last_of_lt_totalPages P total page hP hT hlt
    have hsa : pageStart P page + P = page * P := pageStart_add_pred P page hpage
    have hpos : 0 < page * P := Nat.mul_pos hpage hP
    have hss : pageStart P (page + 1) = page * P := pageStart_succ P page
    unfold pageEnd
    omega
  refine ⟨by simp [pageStart], hcontig, ?_, ?_, ?_⟩
  · intro p q hp hpq hq
    have hsa : pageStart P p + P = p * P := pageStart_add_pred P p hp
    have hpos : 0 < p * P := Nat.mul_pos hp hP
    have hmul : p * P ≤ (q - 1) * P := Nat.mul_le_mul_right _ (by omega)
    have hsq : pageStart P q = (q - 1) * P := rfl
    unfold pageEnd
    omega
  · have hmapeq : (List.range (totalPages P total)).map (fun i => pageSizeAt P total (i + 1))
        = (List.range (totalPages P total)).map
            (fun i => min ((i + 1) * P) total - min (i * P) total) := by
      refine List.map_congr_left ?_
      intro i hi
      rw [List.mem_range] at hi
      have hle : i * P ≤ total - 1 := mul_le_last_of_lt_totalPages P total i hP hT (by omega)
      have hsa : pageStart P (i + 1) + P = (i + 1) * P := pageStart_add_pred P (i + 1) (by omega)
      have hpos : 0 < (i + 1) * P := Nat.mul_pos (by omega) hP
      have hstart : pageStart P (i + 1) = i * P := by simp [pageStart]
      unfold pageSizeAt pageEnd
      omega
    rw [hmapeq, telescope_sum (fun i => min (i * P) total)
      (fun i => by
        have h : i * P ≤ (i + 1) * P := Nat.mul_le_mul_right _ (by omega)
        show min (i * P) total ≤ min ((i + 1) * P) total
        omega)]
    have hTle : total ≤ totalPages P total * P := le_totalPages_mul P total hP hT
    simp only [Nat.zero_mul]
    omega
  · have hpos := totalPages_pos P total hP hT
    have hsa : pageStart P (totalPages P total) + P = totalPages P total * P :=
      pageStart_add_pred P _ hpos
    have hTle : total ≤ totalPages P total * P := le_totalPages_mul P total hP hT
    unfold pageEnd
    omega

theorem c4_page_partition_witness :
    (0 < 3 ∧ 0 < 7) ∧
    (pageStart 3 1 = 0 ∧
    (∀ page, 1 ≤ page → page < totalPages 3 7 →
      pageEnd 3 7 page + 1 = pageStart 3 (page + 1)) ∧
    (∀ p q, 1 ≤ p → p < q → q ≤ totalPages 3 7 →
      pageEnd 3 7 p < pageStart 3 q) ∧
    ((List.range (totalPages 3 7)).map (fun i => pageSizeAt 3 7 (i + 1))).sum = 7 ∧
    pageEnd 3 7 (totalPages 3 7) = 7 - 1) :=
  ⟨by decide, c4_page_partition 3 7 (by decide) (by decide)⟩

/-- Pagination-relevant state of PacketCaptureApp: `_page_size`,
`_current_page`, `_new_packets_since_page`, `_pending_page_reload`,
`_packet_global_index` and the auto-page setting.  The page-size text
input is modelled as holding the current page size. -/
structure PageState where
  pageSize : Nat
  currentPage : Nat
  newSince : Nat
  pendingReload : Bool
  globalIndex : Nat
  autoPage : Bool
deriving DecidableEq

/-- The per-packet pagination logic of `_drain_packet_queue`: with
`index` the packet's global index, recompute previous and new page
counts; on auto-page with the page count growing while sitting on the
last page, jump to the new last page and schedule a reload; else if on
the (still) last page and the new index falls inside it, schedule a
reload; otherwise, when strictly before the last page, bump the
new-records counter.  Finally the global index advances. -/
def processPacketPaging (s : PageState) : PageState :=
  let index := s.globalIndex
  let total := index + 1
  let prevTotal := index
  let prevTotalPages := if prevTotal > 0 then totalPages s.pageSize prevTotal else 1
  let tp := totalPages s.pageSize total
  let s' :=
    if s.autoPage ∧ s.currentPage = prevTotalPages ∧ tp > prevTotalPages then
      { s with currentPage := tp, pendingReload := true }
    else if s.currentPage = tp then
      let cps : Int := ((s.currentPage : Int) - 1) * (s.pageSize : Int)
      let cpe : Int := min (cps + (s.pageSize : Int) - 1) (index : Int)
      if cps ≤ (index : Int) ∧ (index : Int) ≤ cpe then { s with pendingReload := true }
      else s
    else if s.currentPage < tp then
      { s with newSince := s.newSince + 1 }
    else s
  { s' with globalIndex := s'.globalIndex + 1 }

/-- `_on_load_page`: with no records, clear the table and go to page 1;
otherwise jump to the last page and zero the new-records counter (the
page fetch itself is not modelled here). -/
def onLoadPage (s : PageState) : PageState :=
  if s.globalIndex = 0 then { s with currentPage := 1 }
  else { s with currentPage := totalPages s.pageSize s.globalIndex, newSince := 0 }

/-- Tail of `_drain_packet_queue`: if a reload is pending, clear the
flag and run `_on_load_page`. -/
def drainCycleEnd (s : PageState) : PageState :=
  if s.pendingReload then onLoadPage { s with pendingReload := false } else s

/-- One packet drained and the queue-drain cycle finished. -/
def drainOnePacket (s : PageState) : PageState :=
  drainCycleEnd (processPacketPaging s)

/-- C5: Auto-advance on append.  If the controller sits on the last
page and the drained packet raises the page count: with auto-page
enabled the current page becomes the new last page and the pending
new-records counter ends at 0 after the triggered reload; with
auto-page disabled the current page is unchanged and the counter grows
by exactly 1. -/
theorem c5_auto_advance (s : PageState)
    (hP : 0 < s.pageSize)
    (hpend : s.pendingReload = false)
    (hcur : s.currentPage
      = (if s.globalIndex > 0 then totalPages s.pageSize s.globalIndex else 1))
    (hinc : totalPages s.pageSize (s.globalIndex + 1)
      > (if s.globalIndex > 0 then totalPages s.pageSize s.globalIndex else 1)) :
    (s.autoPage = true →
      (drainOnePacket s).currentPage = totalPages s.pageSize (s.globalIndex + 1) ∧
      (drainOnePacket s).newSince = 0) ∧
    (s.autoPage = false →
      (drainOnePacket s).currentPage = s.currentPage ∧
      (drainOnePacket s).newSince = s.newSince + 1) := by
  rcases Nat.eq_zero_or_pos s.globalIndex with h0 | h0
  · exfalso
    rw [h0] at hinc
    simp [totalPages, Nat.div_self hP] at hinc
  · have hgt : s.globalIndex > 0 := h0
    rw [if_pos hgt] at hcur hinc
    have hgt' : (s.globalIndex > 0) = True := eq_true hgt
    constructor
    · intro hauto
      have hstep : processPacketPaging s =
          { s with currentPage := totalPages s.pageSize (s.globalIndex + 1),
                   pendingReload := true,
                   globalIndex := s.globalIndex + 1 } := by
        unfold processPacketPaging
        simp only [hgt', if_true]
        rw [if_pos ⟨hauto, hcur, hinc⟩]
      have hfinal : drainOnePacket s =
          onLoadPage { s with currentPage := totalPages s.pageSize (s.globalIndex + 1),
                              pendingReload := false,
                              globalIndex := s.globalIndex + 1 } := by
        unfold drainOnePacket
        rw [hstep]
        unfold drainCycleEnd
        rfl
      rw [hfinal]
      unfold onLoadPage
      rw [if_neg (by simp)]
      exact ⟨rfl, rfl⟩
    · intro hauto
      have hc1 : ¬ ((s.autoPage = true) ∧
          s.currentPage = totalPages s.pageSize s.globalIndex ∧
          totalPages s.pageSize (s.globalIndex + 1)
            > totalPages s.pageSize s.globalIndex) := by
        simp [hauto]
      have hc2 : ¬ (s.currentPage = totalPages s.pageSize (s.globalIndex + 1)) := by
        rw [hcur]; omega
      have hc3 : s.currentPage < totalPages s.pageSize (s.globalIndex + 1) := by
        rw [hcur]; omega
      have hstep : processPacketPaging s =
          { s with newSince := s.newSince + 1, globalIndex := s.globalIndex + 1 } := by
        unfold processPacketPaging
        simp only [hgt', if_true]
        rw [if_neg hc1, if_neg hc2, if_pos hc3]
      have hfinal : drainOnePacket s =
          { s with newSince := s.newSince + 1, globalIndex := s.globalIndex + 1 } := by
        unfold drainOnePacket
        rw [hstep]
        unfold drainCycleEnd
        simp [hpend]
      rw [hfinal]
      exact ⟨rfl, rfl⟩

theorem c5_auto_advance_witness :
    (0 < 2 ∧
     (⟨2, 1, 0, false, 2, true⟩ : PageState).pendingReload = false ∧
     (⟨2, 1, 0, false, 2, true⟩ : PageState).currentPage = 1 ∧
     totalPages 2 3 > 1) ∧
    (((⟨2, 1, 0, false, 2, true⟩ : PageState).autoPage = true →
      (drainOnePacket ⟨2, 1, 0, false, 2, true⟩).currentPage = totalPages 2 3 ∧
      (drainOnePacket ⟨2, 1, 0, false, 2, true⟩).newSince = 0) ∧
    ((⟨2, 1, 0, false, 2, true⟩ : PageState).autoPage = false →
      (drainOnePacket ⟨2, 1, 0, false, 2, true⟩).currentPage
        = (⟨2, 1, 0, false, 2, true⟩ : PageState).currentPage ∧
      (drainOnePacket ⟨2, 1, 0, false, 2, true⟩).newSince
        = (⟨2, 1, 0, false, 2, true⟩ : PageState).newSince + 1)) :=
  ⟨by decide, c5_auto_advance ⟨2, 1, 0, false, 2, true⟩ (by decide) (by decide)
    (by decide) (by decide)⟩

/-- Lookup in an association list with string keys (a Python dict whose
insertion order is the list order). -/
def lookupKey (k : String) : List (String × α) → Option α
  | [] => none
  | (k', v) :: rest => if k' = k then some v else lookupKey k rest

/-- `del dict[k]`: remove the (unique) entry with key `k`. -/
def eraseKey (k : String) : List (String × α) → List (String × α)
  | [] => []
  | (k', v) :: rest => if k' = k then rest else (k', v) :: eraseKey k rest

/-- `list.remove(k)`: drop the first occurrence of `k`, if any. -/
def removeFirst (k : String) : List String → List String
  | [] => []
  | x :: rest => if x = k then rest else x :: removeFirst k rest

/-- The file-level LRU cache of PacketCaptureApp: `_file_cache` (dict
path → parsed (index, record) list), `_file_cache_access_order` (least
recently used first), `_file_cache_max_files`, plus a ghost counter of
disk loads used to observe re-reads. -/
structure FileCache (D : Type) where
  entries : List (String × List (Nat × D))
  accessOrder : List String
  maxFiles : Nat
  loadCount : Nat
deriving DecidableEq

/-- The `while len(cache) > max_files` eviction loop of
`_read_packets_with_cache`: pop the head of the access order and delete
that cache entry until the bound holds. -/
def evictLoop (maxF : Nat) (entries : List (String × List (Nat × D))) :
    List String → List (String × List (Nat × D)) × List String
  | [] => (entries, [])
  | k :: rest =>
    if entries.length > maxF then evictLoop maxF (eraseKey k entries) rest
    else (entries, k :: rest)

/-- The per-file cache block of `_read_packets_with_cache`: on a hit
the key is moved to the back of the access order and the cached parse
is returned without reading disk; on a miss the file is read from disk
(`diskContent`), stored, appended to the access order, and the LRU
eviction loop runs. -/
def cacheAccess (c : FileCache D) (key : String) (diskContent : List (Nat × D)) :
    List (Nat × D) × FileCache D :=
  match lookupKey key c.entries with
  | some cached =>
      (cached, { c with accessOrder := removeFirst key c.accessOrder ++ [key] })
  | none =>
      let entries := c.entries ++ [(key, diskContent)]
      let order := c.accessOrder ++ [key]
      let ev := evictLoop c.maxFiles entries order
      (diskContent, { c with entries := ev.1, accessOrder := ev.2,
                             loadCount := c.loadCount + 1 })

/-- `_read_packets_with_cache`: walk the globbed segment files in name
order, obtain each file's parse through the cache (or disk on a miss),
and keep the records whose index lies in `[a, b]`. -/
def readPacketsWithCache (c : FileCache D) (files : List (String × List (Nat × D)))
    (a b : Nat) : List (Nat × D) × FileCache D :=
  match files with
  | [] => ([], c)
  | (k, content) :: rest =>
      let step := cacheAccess c k content
      let restRes := readPacketsWithCache step.2 rest a b
      ((step.1.filter (fun p => a ≤ p.1 ∧ p.1 ≤ b)) ++ restRes.1, restRes.2)

/-- A sequence of single-file cache accesses, reading disk through
`fs`. -/
def accessSeq (c : FileCache D) (fs : String → List (Nat × D)) :
    List String → FileCache D
  | [] => c
  | k :: ks => accessSeq (cacheAccess c k (fs k)).2 fs ks

/-- The session's segment files as the glob sees them: (name, parsed
lines) in creation order. -/
def namedDiskFiles (w : WriterState D) : List (String × List (Nat × D)) :=
  (diskFiles w).map (fun f => (fileName w.sessionName f.1, f.2))

/-- `_read_packets_with_cache` applied to the writer's on-disk session
files, name-sorted as the glob produces them. -/
def readPacketsWithCacheFS (c : FileCache D) (w : WriterState D) (a b : Nat) :
    List (Nat × D) × FileCache D :=
  readPacketsWithCache c
    (List.insertionSort (fun f g => nameLe f.1 g.1) (namedDiskFiles w)) a b

/-- C6 counterexample: with one write the writer's only segment is still
open for writing (active), yet a range query over it creates a cache
entry for it, and after a second write to the same active segment an
immediately following range read of the new index through the cache
returns nothing even though the record is on disk. -/
theorem c6_counterexample :
    (writeSeq szW (initWriter "s" 100) [(0, 10)]).isOpen = true ∧
    (lookupKey (fileName "s" 1)
      (readPacketsWithCacheFS ⟨[], [], 20, 0⟩
        (writeSeq szW (initWriter "s" 100) [(0, 10)]) 0 0).2.entries).isSome = true ∧
    (readPacketsWithCacheFS
      (readPacketsWithCacheFS ⟨[], [], 20, 0⟩
        (writeSeq szW (initWriter "s" 100) [(0, 10)]) 0 0).2
      (writeSeq szW (writeSeq szW (initWriter "s" 100) [(0, 10)]) [(1, 20)]) 1 1).1 = [] ∧
    (1, 20) ∈ allLines (writeSeq szW (writeSeq szW (initWriter "s" 100) [(0, 10)]) [(1, 20)]) := by
  decide

theorem lookupKey_append_of_none (k : String) :
    ∀ (l1 l2 : List (String × α)),
      lookupKey k l1 = none → lookupKey k (l1 ++ l2) = lookupKey k l2
  | [], _, _ => rfl
  | (k', v) :: rest, l2, h => by
    by_cases he : k' = k
    · simp [lookupKey, he] at h
    · simp only [List.cons_append, lookupKey, if_neg he] at h ⊢
      exact lookupKey_append_of_none k rest l2 h

theorem evictLoop_of_le (maxF : Nat) (entries : List (String × List (Nat × D)))
    (order : List String) (h : entries.length ≤ maxF) :
    evictLoop maxF entries order = (entries, order) := by
  cases order with
  | nil => rfl
  | cons k rest => simp [evictLoop, Nat.not_lt.mpr h]

theorem lookupKey_map_self (f : String → List (Nat × D)) (k : String) :
    ∀ ks : List String, k ∈ ks →
      lookupKey k (ks.map (fun k' => (k', f k'))) = some (f k)
  | [], h => absurd h (List.not_mem_nil k)
  | x :: rest, h => by
    by_cases he : x = k
    · subst he; simp [lookupKey]
    · have hk : k ∈ rest := by
        rcases List.mem_cons.mp h with h' | h'
        · exact absurd h'.symm he
        · exact h'
      simp only [List.map_cons, lookupKey, if_neg he]
      exact lookupKey_map_self f k rest hk

theorem lookupKey_map_of_not_mem (f : String → List (Nat × D)) (k : String) :
    ∀ ks : List String, k ∉ ks →
      lookupKey k (ks.map (fun k' => (k', f k'))) = none
  | [], _ => rfl
  | x :: rest, h => by
    have hx : ¬ (x = k) := fun he => h (he ▸ List.mem_cons_self x rest)
    simp only [List.map_cons, lookupKey, if_neg hx]
    exact lookupKey_map_of_not_mem f k rest (fun hm => h (List.mem_cons_of_mem x hm))

theorem accessSeq_append (fs : String → List (Nat × D)) :
    ∀ (xs ys : List String) (c : FileCache D),
      accessSeq c fs (xs ++ ys) = accessSeq (accessSeq c fs xs) fs ys
  | [], _, _ => rfl
  | x :: xs, ys, c => by
    simp only [List.cons_append, accessSeq]
    exact accessSeq_append fs xs ys _

theorem cacheAccess_hit (c : FileCache D) (k : String) (content v : List (Nat × D))
    (h : lookupKey k c.entries = some v) :
    cacheAccess c k content
      = (v, { c with accessOrder := removeFirst k c.accessOrder ++ [k] }) := by
  unfold cacheAccess
  rw [h]

theorem cacheAccess_miss (c : FileCache D) (k : String) (content : List (Nat × D))
    (h : lookupKey k c.entries = none) (hcap : c.entries.length + 1 ≤ c.maxFiles) :
    cacheAccess c k content
      = (content, ⟨c.entries ++ [(k, content)], c.accessOrder ++ [k],
          c.maxFiles, c.loadCount + 1⟩) := by
  unfold cacheAccess
  rw [h]
  simp only []
  rw [evictLoop_of_le _ _ _ (by simpa using hcap)]

theorem cacheAccess_miss_evict (k1 : String) (v1 : List (Nat × D))
    (E : List (String × List (Nat × D))) (O : List String) (N L : Nat)
    (k : String) (content : List (Nat × D))
    (hl : lookupKey k ((k1, v1) :: E) = none)
    (hN : ((k1, v1) :: E).length = N) :
    cacheAccess (⟨(k1, v1) :: E, k1 :: O, N, L⟩ : FileCache D) k content
      = (content, ⟨E ++ [(k, content)], O ++ [k], N, L + 1⟩) := by
  unfold cacheAccess
  rw [hl]
  simp only [List.cons_append]
  rw [evictLoop]
  rw [if_pos (by simp at hN ⊢; omega)]
  have he : eraseKey k1 ((k1, v1) :: (E ++ [(k, content)])) = E ++ [(k, content)] := by
    simp [eraseKey]
  rw [he, evictLoop_of_le _ _ _ (by simp at hN ⊢; omega)]

theorem accessSeq_fresh (fs : String → List (Nat × D)) :
    ∀ (ks : List String) (c : FileCache D),
      (∀ k ∈ ks, lookupKey k c.entries = none) → ks.Nodup →
      c.entries.length + ks.length ≤ c.maxFiles →
      accessSeq c fs ks =
        ⟨c.entries ++ ks.map (fun k => (k, fs k)), c.accessOrder ++ ks,
         c.maxFiles, c.loadCount + ks.length⟩
  | [], c, _, _, _ => by simp [accessSeq]
  | k :: rest, c, hfresh, hnodup, hcap => by
    have hmiss := cacheAccess_miss c k (fs k) (hfresh k (List.mem_cons_self k rest))
      (by simp at hcap ⊢; omega)
    rw [accessSeq, hmiss]
    have hfresh' : ∀ k' ∈ rest, lookupKey k' (c.entries ++ [(k, fs k)]) = none := by
      intro k' hk'
      rw [lookupKey_append_of_none k' c.entries _ (hfresh k' (List.mem_cons_of_mem k hk'))]
      have hne : ¬ (k = k') := by
        intro he
        exact (List.nodup_cons.mp hnodup).1 (he ▸ hk')
      simp [lookupKey, hne]
    have hrec := accessSeq_fresh fs rest
      (⟨c.entries ++ [(k, fs k)], c.accessOrder ++ [k], c.maxFiles, c.loadCount + 1⟩ : FileCache D)
      hfresh' (List.nodup_cons.mp hnodup).2 (by simp at hcap ⊢; omega)
    rw [hrec]
    simp [List.append_assoc, Nat.add_assoc, Nat.add_comm]
    omega

theorem cacheAccess_miss_parts (c : FileCache D) (k : String) (content : List (Nat × D))
    (h : lookupKey k c.entries = none) :
    (cacheAccess c k content).1 = content ∧
    (cacheAccess c k content).2.loadCount = c.loadCount + 1 := by
  unfold cacheAccess
  rw [h]
  exact ⟨rfl, rfl⟩

/-- C7: File Cache strict LRU.  Starting from an empty cache of
capacity N ≥ 1 and accessing N+1 distinct closed segment files in
order: each access is a miss that loads from disk (N+1 loads), the
insertion that would exceed N entries evicts exactly the
least-recently-accessed file (the first one) and only it, eviction does
not touch the file itself (a later access to the evicted file is a miss
that re-reads its current on-disk parse and bumps the load counter),
and an access to any still-cached file is a hit that returns the cached
parse without reading disk (the load counter stays put even when the
disk content has changed). -/
theorem c7_file_cache_lru (N : Nat) (k0 : String) (rest : List String)
    (f : String → List (Nat × D)) (g : List (Nat × D))
    (hN : 1 ≤ N) (hlen : rest.length = N) (hnodup : (k0 :: rest).Nodup) :
    accessSeq (⟨[], [], N, 0⟩ : FileCache D) f (k0 :: rest)
      = ⟨rest.map (fun k => (k, f k)), rest, N, N + 1⟩ ∧
    lookupKey k0 (accessSeq (⟨[], [], N, 0⟩ : FileCache D) f (k0 :: rest)).entries = none ∧
    (cacheAccess (accessSeq (⟨[], [], N, 0⟩ : FileCache D) f (k0 :: rest)) k0 (f k0)).1
      = f k0 ∧
    (cacheAccess (accessSeq (⟨[], [], N, 0⟩ : FileCache D) f (k0 :: rest)) k0 (f k0)).2.loadCount
      = N + 2 ∧
    ∀ k ∈ rest,
      (cacheAccess (accessSeq (⟨[], [], N, 0⟩ : FileCache D) f (k0 :: rest)) k g).1 = f k ∧
      (cacheAccess (accessSeq (⟨[], [], N, 0⟩ : FileCache D) f (k0 :: rest)) k g).2.loadCount
        = N + 1 := by
  have hk0 : k0 ∉ rest := (List.nodup_cons.mp hnodup).1
  have hrest : rest.Nodup := (List.nodup_cons.mp hnodup).2
  have hne : rest ≠ [] := by
    intro h
    rw [h] at hlen
    simp at hlen
    omega
  have hsplit : rest.dropLast ++ [rest.getLast hne] = rest :=
    List.dropLast_append_getLast hne
  have hc1 : (cacheAccess (⟨[], [], N, 0⟩ : FileCache D) k0 (f k0)).2
      = ⟨[(k0, f k0)], [k0], N, 1⟩ := by
    rw [cacheAccess_miss (⟨[], [], N, 0⟩ : FileCache D) k0 (f k0) rfl (by simpa using hN)]
    simp
  have hstep1 : accessSeq (⟨[], [], N, 0⟩ : FileCache D) f (k0 :: rest)
      = accessSeq (⟨[(k0, f k0)], [k0], N, 1⟩ : FileCache D) f rest := by
    rw [accessSeq, hc1]
  have hlen' : rest.dropLast.length = N - 1 := by
    rw [List.length_dropLast, hlen]
  have hsub : rest.dropLast.Sublist rest := List.dropLast_sublist rest
  have hfresh : ∀ k ∈ rest.dropLast,
      lookupKey k ((⟨[(k0, f k0)], [k0], N, 1⟩ : FileCache D)).entries = none := by
    intro k hk
    have hkr : k ∈ rest := hsub.subset hk
    have hkk0 : ¬ (k0 = k) := fun he => hk0 (he ▸ hkr)
    simp [lookupKey, hkk0]
  have hc2 : accessSeq (⟨[(k0, f k0)], [k0], N, 1⟩ : FileCache D) f rest.dropLast
      = ⟨[(k0, f k0)] ++ rest.dropLast.map (fun k => (k, f k)),
         [k0] ++ rest.dropLast, N, 1 + rest.dropLast.length⟩ :=
    accessSeq_fresh f rest.dropLast _ hfresh (hrest.sublist hsub)
      (by simp [hlen']; omega)
  have hlastrest : rest.getLast hne ∈ rest := List.getLast_mem hne
  have hlastdrop : rest.getLast hne ∉ rest.dropLast := by
    have h2 : (rest.dropLast ++ [rest.getLast hne]).Nodup := by rw [hsplit]; exact hrest
    rcases List.nodup_append.mp h2 with ⟨_, _, hdisj⟩
    intro hmem
    exact hdisj hmem (List.mem_singleton_self _)
  have hlookup_last : lookupKey (rest.getLast hne)
      ((k0, f k0) :: rest.dropLast.map (fun k => (k, f k))) = none := by
    have hne0 : ¬ (k0 = rest.getLast hne) := fun he => hk0 (he ▸ hlastrest)
    simp only [lookupKey, if_neg hne0]
    exact lookupKey_map_of_not_mem f _ rest.dropLast hlastdrop
  have hfinalstate : accessSeq (⟨[], [], N, 0⟩ : FileCache D) f (k0 :: rest)
      = ⟨rest.map (fun k => (k, f k)), rest, N, N + 1⟩ := by
    rw [hstep1]
    have hsplit2 : accessSeq (⟨[(k0, f k0)], [k0], N, 1⟩ : FileCache D) f rest
        = accessSeq (accessSeq (⟨[(k0, f k0)], [k0], N, 1⟩ : FileCache D) f rest.dropLast)
            f [rest.getLast hne] := by
      conv_lhs => rw [← hsplit]
      rw [accessSeq_append]
    rw [hsplit2, hc2]
    simp only [accessSeq, List.singleton_append]
    rw [cacheAccess_miss_evict k0 (f k0) (rest.dropLast.map (fun k => (k, f k)))
      rest.dropLast N (1 + rest.dropLast.length) (rest.getLast hne)
      (f (rest.getLast hne)) hlookup_last (by simp [hlen']; omega)]
    have hmap : rest.dropLast.map (fun k => (k, f k))
        ++ [(rest.getLast hne, f (rest.getLast hne))] = rest.map (fun k => (k, f k)) := by
      conv_rhs => rw [← hsplit]
      simp [List.map_append]
    have hload : 1 + rest.dropLast.length + 1 = N + 1 := by omega
    rw [hmap, hsplit, hload]
  refine ⟨hfinalstate, ?_, ?_, ?_, ?_⟩
  · rw [hfinalstate]
    exact lookupKey_map_of_not_mem f k0 rest hk0
  · rw [hfinalstate]
    exact (cacheAccess_miss_parts _ k0 (f k0)
      (lookupKey_map_of_not_mem f k0 rest hk0)).1
  · rw [hfinalstate]
    exact (cacheAccess_miss_parts _ k0 (f k0)
      (lookupKey_map_of_not_mem f k0 rest hk0)).2
  · intro k hk
    rw [hfinalstate, cacheAccess_hit _ k g (f k) (lookupKey_map_self f k rest hk)]
    exact ⟨rfl, rfl⟩

def fW : String → List (Nat × Nat) := fun k => [(k.length, 7)]

theorem c7_file_cache_lru_witness :
    (1 ≤ 2 ∧ (["b", "c"] : List String).length = 2 ∧
      (("a" : String) :: ["b", "c"]).Nodup) ∧
    (accessSeq (⟨[], [], 2, 0⟩ : FileCache Nat) fW ("a" :: ["b", "c"])
      = ⟨(["b", "c"] : List String).map (fun k => (k, fW k)), ["b", "c"], 2, 2 + 1⟩ ∧
    lookupKey "a" (accessSeq (⟨[], [], 2, 0⟩ : FileCache Nat) fW ("a" :: ["b", "c"])).entries
      = none ∧
    (cacheAccess (accessSeq (⟨[], [], 2, 0⟩ : FileCache Nat) fW ("a" :: ["b", "c"]))
      "a" (fW "a")).1 = fW "a" ∧
    (cacheAccess (accessSeq (⟨[], [], 2, 0⟩ : FileCache Nat) fW ("a" :: ["b", "c"]))
      "a" (fW "a")).2.loadCount = 2 + 2 ∧
    ∀ k ∈ (["b", "c"] : List String),
      (cacheAccess (accessSeq (⟨[], [], 2, 0⟩ : FileCache Nat) fW ("a" :: ["b", "c"]))
        k [(9, 9)]).1 = fW k ∧
      (cacheAccess (accessSeq (⟨[], [], 2, 0⟩ : FileCache Nat) fW ("a" :: ["b", "c"]))
        k [(9, 9)]).2.loadCount = 2 + 1) :=
  ⟨by decide, c7_file_cache_lru 2 "a" ["b", "c"] fW [(9, 9)] (by decide) (by decide)
    (by decide)⟩

theorem readPacketsWithCache_fills (a b : Nat) :
    ∀ (files : List (String × List (Nat × D))) (c : FileCache D),
      (∀ f ∈ files, lookupKey f.1 c.entries = none) →
      (files.map Prod.fst).Nodup →
      c.entries.length + files.length ≤ c.maxFiles →
      (readPacketsWithCache c files a b).2 =
        ⟨c.entries ++ files, c.accessOrder ++ files.map Prod.fst,
         c.maxFiles, c.loadCount + files.length⟩
  | [], c, _, _, _ => by simp [readPacketsWithCache]
  | (k, content) :: rest, c, hfresh, hnodup, hcap => by
    have hmiss := cacheAccess_miss c k content
      (hfresh (k, content) (List.mem_cons_self _ _)) (by simp at hcap ⊢; omega)
    have hknodup : k ∉ rest.map Prod.fst ∧ (rest.map Prod.fst).Nodup := by
      simp only [List.map_cons] at hnodup
      exact List.nodup_cons.mp hnodup
    have hfresh' : ∀ f ∈ rest, lookupKey f.1 (c.entries ++ [(k, content)]) = none := by
      intro f hf
      rw [lookupKey_append_of_none _ _ _ (hfresh f (List.mem_cons_of_mem _ hf))]
      have hne : ¬ (k = f.1) := by
        intro he
        exact hknodup.1 (he ▸ List.mem_map_of_mem Prod.fst hf)
      simp [lookupKey, hne]
    have hrec := readPacketsWithCache_fills a b rest
      (⟨c.entries ++ [(k, content)], c.accessOrder ++ [k],
        c.maxFiles, c.loadCount + 1⟩ : FileCache D)
      hfresh' hknodup.2 (by simp at hcap ⊢; omega)
    rw [readPacketsWithCache]
    simp only []
    rw [hmiss, hrec]
    have hent : (c.entries ++ [(k, content)]) ++ rest = c.entries ++ (k, content) :: rest := by
      simp
    have hord : (c.accessOrder ++ [k]) ++ rest.map Prod.fst
        = c.accessOrder ++ ((k, content) :: rest).map Prod.fst := by simp
    have hload : c.loadCount + 1 + rest.length
        = c.loadCount + ((k, content) :: rest).length := by
      simp only [List.length_cons]
      omega
    rw [hent, hord, hload]

theorem readPacketsWithCache_allHit (a b : Nat) :
    ∀ (files : List (String × List (Nat × D))) (c : FileCache D),
      (∀ f ∈ files, (lookupKey f.1 c.entries).isSome) →
      (readPacketsWithCache c files a b).1 =
        (files.map (fun f => ((lookupKey f.1 c.entries).getD []).filter
          (fun p => a ≤ p.1 ∧ p.1 ≤ b))).flatten ∧
      (readPacketsWithCache c files a b).2.entries = c.entries ∧
      (readPacketsWithCache c files a b).2.loadCount = c.loadCount
  | [], c, _ => by simp [readPacketsWithCache]
  | (k, content) :: rest, c, hsome => by
    obtain ⟨v, hv⟩ := Option.isSome_iff_exists.mp
      (hsome (k, content) (List.mem_cons_self _ _))
    have hhit := cacheAccess_hit c k content v hv
    have hrec := readPacketsWithCache_allHit a b rest
      ({ c with accessOrder := removeFirst k c.accessOrder ++ [k] } : FileCache D)
      (fun f hf => hsome f (List.mem_cons_of_mem _ hf))
    rw [readPacketsWithCache]
    simp only []
    rw [hhit]
    refine ⟨?_, hrec.2.1, hrec.2.2⟩
    rw [hrec.1]
    simp [hv]

theorem lookup_filled_entries :
    ∀ (files E : List (String × List (Nat × D))),
      (∀ f ∈ files, lookupKey f.1 E = none) → (files.map Prod.fst).Nodup →
      ∀ f ∈ files, lookupKey f.1 (E ++ files) = some f.2
  | [], _, _, _ => by intro f hf; exact absurd hf (List.not_mem_nil f)
  | (k, v) :: rest, E, hfresh, hnodup => by
    have hknodup : k ∉ rest.map Prod.fst ∧ (rest.map Prod.fst).Nodup := by
      simp only [List.map_cons] at hnodup
      exact List.nodup_cons.mp hnodup
    intro f hf
    rcases List.mem_cons.mp hf with hf' | hf'
    · subst hf'
      rw [lookupKey_append_of_none _ _ _ (hfresh (k, v) (List.mem_cons_self _ _))]
      simp [lookupKey]
    · have hxx : E ++ (k, v) :: rest = (E ++ [(k, v)]) ++ rest := by simp
      rw [hxx]
      refine lookup_filled_entries rest (E ++ [(k, v)]) ?_ hknodup.2 f hf'
      intro g hg
      rw [lookupKey_append_of_none _ _ _ (hfresh g (List.mem_cons_of_mem _ hg))]
      have hne : ¬ (k = g.1) := by
        intro he
        exact hknodup.1 (he ▸ List.mem_map_of_mem Prod.fst hg)
      simp [lookupKey, hne]

theorem map_cached_filter (E : List (String × List (Nat × D))) (P : Nat × D → Bool) :
    ∀ (files files' : List (String × List (Nat × D))),
      files'.map Prod.fst = files.map Prod.fst →
      (∀ f ∈ files, lookupKey f.1 E = some f.2) →
      files'.map (fun f => ((lookupKey f.1 E).getD []).filter P)
        = files.map (fun f => f.2.filter P)
  | [], [], _, _ => rfl
  | [], _ :: _, hnames, _ => by simp at hnames
  | _ :: _, [], hnames, _ => by simp at hnames
  | f :: rest, g :: rest', hnames, hlook => by
    simp only [List.map_cons, List.cons.injEq] at hnames
    obtain ⟨hname, hnames'⟩ := hnames
    simp only [List.map_cons]
    congr 1
    · rw [hname, hlook f (List.mem_cons_self _ _)]
      rfl
    · exact map_cached_filter E P rest rest' hnames'
        (fun x hx => hlook x (List.mem_cons_of_mem _ hx))

/-- C6 (amended): Every globbed segment file — the still-open active
one included — is served through the File Cache: a query loads and
caches every touched segment not yet cached, and once a segment is
cached, later queries over the same segment names are answered entirely
from the cached parses, with no disk read, even where the on-disk files
(in particular the active segment) have changed since; new records in
the active segment are therefore invisible to this read path while its
cache entry lives. -/
theorem c6_active_segment_cached (c : FileCache D)
    (files files' : List (String × List (Nat × D))) (a b a' b' : Nat)
    (hfresh : ∀ f ∈ files, lookupKey f.1 c.entries = none)
    (hnodup : (files.map Prod.fst).Nodup)
    (hcap : c.entries.length + files.length ≤ c.maxFiles)
    (hnames : files'.map Prod.fst = files.map Prod.fst) :
    (∀ f ∈ files, lookupKey f.1 (readPacketsWithCache c files a b).2.entries = some f.2) ∧
    (readPacketsWithCache (readPacketsWithCache c files a b).2 files' a' b').2.loadCount
      = (readPacketsWithCache c files a b).2.loadCount ∧
    (readPacketsWithCache (readPacketsWithCache c files a b).2 files' a' b').1
      = (files.map (fun f => f.2.filter (fun p => a' ≤ p.1 ∧ p.1 ≤ b'))).flatten := by
  have hst := readPacketsWithCache_fills a b files c hfresh hnodup hcap
  have hE : (readPacketsWithCache c files a b).2.entries = c.entries ++ files := by
    rw [hst]
  have hlook : ∀ f ∈ files, lookupKey f.1 (c.entries ++ files) = some f.2 :=
    lookup_filled_entries files c.entries hfresh hnodup
  have hsome : ∀ f ∈ files',
      (lookupKey f.1 (readPacketsWithCache c files a b).2.entries).isSome := by
    intro f hf
    rw [hE]
    have hmemname : f.1 ∈ files.map Prod.fst := by
      rw [← hnames]
      exact List.mem_map_of_mem Prod.fst hf
    obtain ⟨g, hg, hgf⟩ := List.mem_map.mp hmemname
    rw [← hgf, hlook g hg]
    rfl
  obtain ⟨h1, _, h3⟩ := readPacketsWithCache_allHit a' b' files' _ hsome
  refine ⟨?_, h3, ?_⟩
  · intro f hf
    rw [hE]
    exact hlook f hf
  · rw [h1, hE]
    exact congrArg List.flatten (map_cached_filter (c.entries ++ files) _ files files' hnames hlook)

theorem c6_active_segment_cached_witness :
    ((∀ f ∈ ([("f", [(0, 1)])] : List (String × List (Nat × Nat))),
        lookupKey f.1 (([] : List (String × List (Nat × Nat)))) = none) ∧
      (([("f", [(0, 1)])] : List (String × List (Nat × Nat))).map Prod.fst).Nodup ∧
      (0 : Nat) + 1 ≤ 20 ∧
      ([("f", [(0, 1), (1, 2)])] : List (String × List (Nat × Nat))).map Prod.fst
        = ([("f", [(0, 1)])] : List (String × List (Nat × Nat))).map Prod.fst) ∧
    ((∀ f ∈ ([("f", [(0, 1)])] : List (String × List (Nat × Nat))),
        lookupKey f.1
          (readPacketsWithCache (⟨[], [], 20, 0⟩ : FileCache Nat)
            [("f", [(0, 1)])] 0 0).2.entries = some f.2) ∧
    (readPacketsWithCache
        (readPacketsWithCache (⟨[], [], 20, 0⟩ : FileCache Nat) [("f", [(0, 1)])] 0 0).2
        [("f", [(0, 1), (1, 2)])] 1 1).2.loadCount
      = (readPacketsWithCache (⟨[], [], 20, 0⟩ : FileCache Nat)
          [("f", [(0, 1)])] 0 0).2.loadCount ∧
    (readPacketsWithCache
        (readPacketsWithCache (⟨[], [], 20, 0⟩ : FileCache Nat) [("f", [(0, 1)])] 0 0).2
        [("f", [(0, 1), (1, 2)])] 1 1).1
      = (([("f", [(0, 1)])] : List (String × List (Nat × Nat))).map
          (fun f => f.2.filter (fun p => 1 ≤ p.1 ∧ p.1 ≤ 1))).flatten) :=
  ⟨by decide, c6_active_segment_cached (⟨[], [], 20, 0⟩ : FileCache Nat)
    [("f", [(0, 1)])] [("f", [(0, 1), (1, 2)])] 0 0 1 1
    (by decide) (by decide) (by decide) (by decide)⟩

/-- Lookup in an association list with Nat keys (the `_packet_cache`
dict, insertion-ordered). -/
def lookupNat (k : Nat) : List (Nat × α) → Option α
  | [] => none
  | (k', v) :: rest => if k' = k then some v else lookupNat k rest

/-- `del dict[k]` for the Nat-keyed dict. -/
def eraseNatKey (k : Nat) : List (Nat × α) → List (Nat × α)
  | [] => []
  | (k', v) :: rest => if k' = k then rest else (k', v) :: eraseNatKey k rest

/-- `min(dict.keys())`, None when the dict is empty. -/
def minKey? : List (Nat × α) → Option Nat
  | [] => none
  | (k, _) :: rest =>
    match minKey? rest with
    | none => some k
    | some m => some (min k m)

/-- The `del cache[min(cache.keys())]` eviction of
`_drain_packet_queue` (a no-op on the empty dict, where the guarded
`min()` call raises and the bare except swallows it). -/
def delMinKey (l : List (Nat × α)) : List (Nat × α) :=
  match minKey? l with
  | none => l
  | some m => eraseNatKey m l

/-- `dict[k] = v`: replace in place when present, else append. -/
def insertAssoc (l : List (Nat × α)) (k : Nat) (v : α) : List (Nat × α) :=
  if (lookupNat k l).isSome then
    l.map (fun p => if p.1 = k then (k, v) else p)
  else l ++ [(k, v)]

/-- `deque(maxlen=cap).append(x)`: the leftmost (oldest) entries beyond
the bound fall out. -/
def dequeAppend (cap : Nat) (q : List (Nat × α)) (x : Nat × α) : List (Nat × α) :=
  (q ++ [x]).drop ((q ++ [x]).length - cap)

/-- The hot in-memory record store of PacketCaptureApp:
`captured_packets` (a deque with maxlen `_ui_cache_size`, oldest first)
and `_packet_cache` (a dict index → record with the same configured
bound `_packet_cache_max_size`). -/
structure HotBuffer (D : Type) where
  seq : List (Nat × D)
  cache : List (Nat × D)
  capacity : Nat
deriving DecidableEq

/-- One hot-buffer push from `_drain_packet_queue`: if the dict is at
or over its bound, delete its smallest (oldest) key; append to the
deque (which auto-evicts its oldest at capacity); store in the dict. -/
def hbPush (h : HotBuffer D) (i : Nat) (d : D) : HotBuffer D :=
  let cache1 := if h.cache.length ≥ h.capacity then delMinKey h.cache else h.cache
  { h with seq := dequeAppend h.capacity h.seq (i, d)
           cache := insertAssoc cache1 i d }

/-- A sequence of hot-buffer pushes. -/
def hbPushSeq (h : HotBuffer D) : List (Nat × D) → HotBuffer D
  | [] => h
  | p :: rest => hbPushSeq (hbPush h p.1 p.2) rest

/-- The bulk load of `load_capture`: fresh deque and cleared dict, then
for each loaded record the deque append (bounded) and a direct dict
store with no eviction check. -/
def hbBulkLoad (cap : Nat) (ds : List D) : HotBuffer D :=
  (ds.enum).foldl
    (fun h p => { h with seq := dequeAppend cap h.seq p
                         cache := insertAssoc h.cache p.1 p.2 })
    ⟨[], [], cap⟩

/-- C8 counterexample: bulk-loading two records with capacity 1 leaves
the dict holding both records while the deque holds one, so the buffer
holds more than `capacity` records and index 0 lives in the map but not
in the sequence — the map and the sequence are not synchronized. -/
theorem c8_counterexample :
    (hbBulkLoad 1 [10, 20]).cache.length = 2 ∧
    (hbBulkLoad 1 [10, 20]).seq.length = 1 ∧
    lookupNat 0 (hbBulkLoad 1 [10, 20]).cache = some 10 ∧
    ¬ (0 ∈ (hbBulkLoad 1 [10, 20]).seq.map Prod.fst) := by
  decide

theorem lookupNat_none_of_keys_lt (n : Nat) :
    ∀ L : List (Nat × α), (∀ p ∈ L, p.1 < n) → lookupNat n L = none
  | [], _ => rfl
  | (k, v) :: rest, h => by
    have hk : k < n := h (k, v) (List.mem_cons_self _ _)
    have hne : ¬ (k = n) := by omega
    simp only [lookupNat, if_neg hne]
    exact lookupNat_none_of_keys_lt n rest (fun p hp => h p (List.mem_cons_of_mem _ hp))

theorem lookupNat_isSome_iff (k : Nat) :
    ∀ L : List (Nat × α), (lookupNat k L).isSome ↔ k ∈ L.map Prod.fst
  | [] => by simp [lookupNat]
  | (k', v) :: rest => by
    by_cases he : k' = k
    · subst he
      simp [lookupNat]
    · simp only [lookupNat, if_neg he, List.map_cons, List.mem_cons]
      rw [lookupNat_isSome_iff k rest]
      constructor
      · exact fun h => Or.inr h
      · rintro (h | h)
        · exact absurd h.symm he
        · exact h

theorem minKey?_mem :
    ∀ (L : List (Nat × α)) (m : Nat), minKey? L = some m → ∃ p ∈ L, p.1 = m
  | [], m, h => by simp [minKey?] at h
  | (k, v) :: rest, m, h => by
    simp only [minKey?] at h
    rcases hr : minKey? rest with _ | m'
    · rw [hr] at h
      simp at h
      exact ⟨(k, v), List.mem_cons_self _ _, h⟩
    · rw [hr] at h
      simp at h
      rcases Nat.le_total k m' with hle | hle
      · rw [Nat.min_eq_left hle] at h
        exact ⟨(k, v), List.mem_cons_self _ _, h⟩
      · rw [Nat.min_eq_right hle] at h
        obtain ⟨p, hp, hpm⟩ := minKey?_mem rest m' hr
        exact ⟨p, List.mem_cons_of_mem _ hp, by omega⟩

theorem delMinKey_sorted (x : Nat × α) (xs : List (Nat × α))
    (h : ∀ p ∈ xs, x.1 < p.1) : delMinKey (x :: xs) = xs := by
  have hmin : minKey? (x :: xs) = some x.1 := by
    rcases hr : minKey? xs with _ | m'
    · simp [minKey?, hr]
    · obtain ⟨p, hp, hpm⟩ := minKey?_mem xs m' hr
      have : x.1 < m' := hpm ▸ h p hp
      simp [minKey?, hr, Nat.min_eq_left (Nat.le_of_lt this)]
  obtain ⟨k, v⟩ := x
  simp only [delMinKey, hmin, eraseNatKey]
  simp

theorem hbPushSeq_snoc (h : HotBuffer D) (ps : List (Nat × D)) (p : Nat × D) :
    hbPushSeq h (ps ++ [p]) = hbPush (hbPushSeq h ps) p.1 p.2 := by
  induction ps generalizing h with
  | nil => rfl
  | cons q rest ih =>
    simp only [List.cons_append, hbPushSeq]
    exact ih _

theorem hbPush_window (K : Nat) (hK : 1 ≤ K) (L : List (Nat × D)) (n : Nat) (d : D)
    (hkeys : ∀ p ∈ L, p.1 < n)
    (hpair : List.Pairwise (fun p q : Nat × D => p.1 < q.1) L)
    (hlen : L.length ≤ K) :
    hbPush (⟨L, L, K⟩ : HotBuffer D) n d
      = ⟨(if L.length = K then L.tail else L) ++ [(n, d)],
         (if L.length = K then L.tail else L) ++ [(n, d)], K⟩ := by
  by_cases hfull : L.length = K
  · cases L with
    | nil =>
      simp at hfull
      omega
    | cons x xs =>
      have hx : ∀ p ∈ xs, x.1 < p.1 := fun p hp => (List.pairwise_cons.mp hpair).1 p hp
      have hdel : delMinKey (x :: xs) = xs := delMinKey_sorted x xs hx
      have hge : (x :: xs).length ≥ K := Nat.le_of_eq hfull.symm
      have hlook : lookupNat n xs = none :=
        lookupNat_none_of_keys_lt n xs
          (fun p hp => hkeys p (List.mem_cons_of_mem _ hp))
      have hdeque : dequeAppend K (x :: xs) (n, d) = xs ++ [(n, d)] := by
        unfold dequeAppend
        have hlen2 : ((x :: xs) ++ [(n, d)]).length = K + 1 := by
          simp at hfull ⊢
          omega
        rw [hlen2]
        simp only [Nat.add_sub_cancel_left]
        simp [Nat.succ_sub_one]
      unfold hbPush
      simp only [if_pos hge, hdel, if_pos hfull]
      rw [hdeque]
      simp only [insertAssoc, hlook, Option.isSome_none, Bool.false_eq_true, if_neg]
      simp
  · have hlt : L.length < K := Nat.lt_of_le_of_ne hlen hfull
    have hnotge : ¬ (L.length ≥ K) := by omega
    have hlook : lookupNat n L = none := lookupNat_none_of_keys_lt n L hkeys
    have hdeque : dequeAppend K L (n, d) = L ++ [(n, d)] := by
      unfold dequeAppend
      have : (L ++ [(n, d)]).length - K = 0 := by
        simp
        omega
      rw [this]
      rfl
    unfold hbPush
    simp only [if_neg hnotge, if_neg hfull]
    rw [hdeque]
    simp only [insertAssoc, hlook, Option.isSome_none, Bool.false_eq_true, if_neg]
    simp

theorem range'_drop : ∀ (m s n : Nat), (List.range' s n).drop m = List.range' (s + m) (n - m)
  | 0, s, n => by simp
  | m + 1, s, 0 => by simp [List.range']
  | m + 1, s, n + 1 => by
    rw [List.range'_succ, List.drop_succ_cons, range'_drop m (s + 1) n]
    have h1 : s + 1 + m = s + (m + 1) := by omega
    have h2 : n - m = n + 1 - (m + 1) := by omega
    rw [h1, h2]

theorem enum_keys_lt (ds : List D) : ∀ p ∈ ds.enum, p.1 < ds.length := by
  intro p hp
  have : p.1 ∈ ds.enum.map Prod.fst := List.mem_map_of_mem Prod.fst hp
  rw [List.enum_map_fst] at this
  exact List.mem_range.mp this

theorem enum_pairwise (ds : List D) :
    List.Pairwise (fun p q : Nat × D => p.1 < q.1) ds.enum := by
  have h1 : List.Pairwise (· < ·) (ds.enum.map Prod.fst) := by
    rw [List.enum_map_fst]
    exact List.pairwise_lt_range _
  exact List.pairwise_map.mp h1

theorem hbPushSeq_window (K : Nat) (hK : 1 ≤ K) (ds : List D) :
    hbPushSeq (⟨[], [], K⟩ : HotBuffer D) ds.enum
      = ⟨ds.enum.drop (ds.length - K), ds.enum.drop (ds.length - K), K⟩ := by
  induction ds using List.reverseRecOn with
  | nil => simp [hbPushSeq]
  | append_singleton ds d ih =>
    have henum : (ds ++ [d]).enum = ds.enum ++ [(ds.length, d)] := by
      rw [List.enum_append]
      rfl
    rw [henum, hbPushSeq_snoc, ih]
    have helen : ds.enum.length = ds.length := List.enum_length
    have hkeys : ∀ p ∈ ds.enum.drop (ds.length - K), p.1 < ds.length :=
      fun p hp => enum_keys_lt ds p ((List.drop_sublist _ _).subset hp)
    have hpair : List.Pairwise (fun p q : Nat × D => p.1 < q.1)
        (ds.enum.drop (ds.length - K)) :=
      (enum_pairwise ds).sublist (List.drop_sublist _ _)
    have hlen : (ds.enum.drop (ds.length - K)).length ≤ K := by
      rw [List.length_drop, helen]
      omega
    rw [hbPush_window K hK _ ds.length d hkeys hpair hlen]
    have happlen : (ds ++ [d]).length = ds.length + 1 := by simp
    by_cases hge : K ≤ ds.length
    · have hfull : (ds.enum.drop (ds.length - K)).length = K := by
        rw [List.length_drop, helen]
        omega
      rw [if_pos hfull]
      have htail : (ds.enum.drop (ds.length - K)).tail
          = ds.enum.drop (ds.length - K + 1) := List.tail_drop _ _
      have hdropapp : (ds.enum ++ [(ds.length, d)]).drop ((ds ++ [d]).length - K)
          = ds.enum.drop (ds.length - K + 1) ++ [(ds.length, d)] := by
        have hlen3 : (ds ++ [d]).length - K = ds.length - K + 1 := by
          rw [happlen]
          omega
        rw [hlen3, List.drop_append_of_le_length (by rw [helen]; omega)]
      rw [htail, hdropapp]
    · have hnfull : (ds.enum.drop (ds.length - K)).length ≠ K := by
        rw [List.length_drop, helen]
        omega
      rw [if_neg hnfull]
      have h0 : ds.length - K = 0 := by omega
      have h0' : (ds ++ [d]).length - K = 0 := by
        rw [happlen]
        omega
      rw [h0, h0']
      simp

theorem range_drop_eq (n m : Nat) : (List.range n).drop m = List.range' m (n - m) := by
  rw [List.range_eq_range', range'_drop]
  rw [Nat.zero_add]

/-- C8 (amended): For push-only sequences the hot buffer behaves as
claimed: pushing K+M records (capacity K ≥ 1, M ≥ 1) with consecutive
indices into an empty buffer leaves the deque holding exactly the
records with the K highest indices [M, K+M-1] in order, each push at
capacity having evicted the single oldest entry from both the deque
and the dict, which stay equal throughout — a record is in the map
exactly when its index is in the sequence.  (The bulk-load path breaks
this: see the counterexample, where the dict keeps all loaded records
while the deque is truncated.) -/
theorem c8_hot_buffer_pushes (K M : Nat) (ds : List D)
    (hK : 1 ≤ K) (hlen : ds.length = K + M) (hM : 1 ≤ M) :
    (hbPushSeq (⟨[], [], K⟩ : HotBuffer D) ds.enum).seq = ds.enum.drop M ∧
    (hbPushSeq (⟨[], [], K⟩ : HotBuffer D) ds.enum).cache
      = (hbPushSeq (⟨[], [], K⟩ : HotBuffer D) ds.enum).seq ∧
    (hbPushSeq (⟨[], [], K⟩ : HotBuffer D) ds.enum).seq.length = K ∧
    (hbPushSeq (⟨[], [], K⟩ : HotBuffer D) ds.enum).seq.map Prod.fst
      = List.range' M K ∧
    (∀ k, (lookupNat k (hbPushSeq (⟨[], [], K⟩ : HotBuffer D) ds.enum).cache).isSome
      ↔ k ∈ (hbPushSeq (⟨[], [], K⟩ : HotBuffer D) ds.enum).seq.map Prod.fst) := by
  have hw := hbPushSeq_window K hK ds
  have hdm : ds.length - K = M := by omega
  have hseq : (hbPushSeq (⟨[], [], K⟩ : HotBuffer D) ds.enum).seq = ds.enum.drop M := by
    rw [hw, hdm]
  have hcache : (hbPushSeq (⟨[], [], K⟩ : HotBuffer D) ds.enum).cache
      = ds.enum.drop M := by
    rw [hw, hdm]
  refine ⟨hseq, by rw [hseq, hcache], ?_, ?_, ?_⟩
  · rw [hseq, List.length_drop, List.enum_length]
    omega
  · rw [hseq, List.map_drop, List.enum_map_fst, hlen, range_drop_eq]
    rw [show K + M - M = K from by omega]
  · intro k
    rw [hseq, hcache]
    exact lookupNat_isSome_iff k _

theorem c8_hot_buffer_pushes_witness :
    (1 ≤ 2 ∧ ([5, 6, 7] : List Nat).length = 2 + 1 ∧ 1 ≤ 1) ∧
    ((hbPushSeq (⟨[], [], 2⟩ : HotBuffer Nat) ([5, 6, 7] : List Nat).enum).seq
        = ([5, 6, 7] : List Nat).enum.drop 1 ∧
    (hbPushSeq (⟨[], [], 2⟩ : HotBuffer Nat) ([5, 6, 7] : List Nat).enum).cache
        = (hbPushSeq (⟨[], [], 2⟩ : HotBuffer Nat) ([5, 6, 7] : List Nat).enum).seq ∧
    (hbPushSeq (⟨[], [], 2⟩ : HotBuffer Nat) ([5, 6, 7] : List Nat).enum).seq.length = 2 ∧
    (hbPushSeq (⟨[], [], 2⟩ : HotBuffer Nat) ([5, 6, 7] : List Nat).enum).seq.map Prod.fst
        = List.range' 1 2 ∧
    (∀ k, (lookupNat k
        (hbPushSeq (⟨[], [], 2⟩ : HotBuffer Nat) ([5, 6, 7] : List Nat).enum).cache).isSome
      ↔ k ∈ (hbPushSeq (⟨[], [], 2⟩ : HotBuffer Nat)
          ([5, 6, 7] : List Nat).enum).seq.map Prod.fst)) :=
  ⟨by decide, c8_hot_buffer_pushes 2 1 [5, 6, 7] (by decide) (by decide) (by decide)⟩

/-- The page-size handling at the top of `_on_load_page`:
`int(self.page_size_input.text())` either yields an integer `n` (then
the page size becomes `max(1, n)`) or raises (modelled as `none`; the
bare except then sets the page size to 100). -/
def onLoadPagePageSize (t : Option Int) : Nat :=
  match t with
  | some n => (max 1 n).toNat
  | none => 100

/-- C9 counterexample: a negative page size input is silently clamped
to 1 and a non-numeric input silently becomes 100 — the call completes
normally with a valid page size instead of surfacing an error to the
caller. -/
theorem c9_counterexample :
    onLoadPagePageSize (some (-5)) = 1 ∧ onLoadPagePageSize none = 100 := by
  constructor <;> rfl

/-- C9 (amended): Invalid page-size arguments are absorbed, not
surfaced: a numeric page size below 1 is clamped to 1, a non-numeric
page size falls back to 100, and the parse always produces a valid
page size of at least 1 — `_on_load_page` never raises a page-size
error to the caller. -/
theorem c9_invalid_page_size_absorbed (n : Int) (h : n ≤ 0) :
    onLoadPagePageSize (some n) = 1 ∧
    onLoadPagePageSize none = 100 ∧
    (∀ t : Option Int, 1 ≤ onLoadPagePageSize t) := by
  refine ⟨?_, rfl, ?_⟩
  · simp only [onLoadPagePageSize]
    omega
  · intro t
    cases t with
    | none => simp [onLoadPagePageSize]
    | some m =>
      simp only [onLoadPagePageSize]
      omega

theorem c9_invalid_page_size_absorbed_witness :
    ((-5 : Int) ≤ 0) ∧
    (onLoadPagePageSize (some (-5)) = 1 ∧
    onLoadPagePageSize none = 100 ∧
    (∀ t : Option Int, 1 ≤ onLoadPagePageSize t)) :=
  ⟨by decide, c9_invalid_page_size_absorbed (-5) (by decide)⟩

end PacketCapture
